import Mathlib

/-!
# Verification of the GitHub repository fetch/normalize/filter pipeline

A shallow embedding of the core client-side pipeline of the portfolio site:
the pagination fetcher and record normalizer (`useGitHubRepos` hook), the
repository store resolution logic, the tag aggregator and the filter engine
(`App` component).

JavaScript strings are modelled as `List Char`.  `String.prototype.toLowerCase`
is modelled by the ASCII case mapping (the tags and queries the site handles
are ASCII); `String.prototype.trim` strips the common whitespace characters
from both ends; `String.prototype.includes` is contiguous-substring
containment, i.e. `List.IsInfix` written `<:+:`.  The `updated_at` field is
modelled as the integer returned by `new Date(s).getTime()`, abstracting the
ISO-8601 parse.
-/

/-- JavaScript strings, modelled as lists of characters. -/
abbrev Str := List Char

/-- Whitespace recognised by the model of `String.prototype.trim`
(space, tab, line feed, carriage return). -/
def isWS (c : Char) : Bool :=
  c = ' ' || c = '\t' || c = '\n' || c = '\r'

/-- Drop leading whitespace (left half of `trim`). -/
def ltrim (s : Str) : Str := s.dropWhile isWS

/-- Drop trailing whitespace (right half of `trim`). -/
def rtrim (s : Str) : Str := (s.reverse.dropWhile isWS).reverse

/-- Model of `String.prototype.trim`: strip whitespace from both ends. -/
def trim (s : Str) : Str := rtrim (ltrim s)

/-- Model of `toLowerCase` on one character: the ASCII case mapping. -/
def lowerChar (c : Char) : Char :=
  if 65 ≤ c.toNat ∧ c.toNat ≤ 90 then Char.ofNat (c.toNat + 32) else c

/-- Model of `String.prototype.toLowerCase` (ASCII). -/
def lowerStr (s : Str) : Str := s.map lowerChar

/-- Decimal digit character for `n < 10`. -/
def digitChar (n : Nat) : Char := Char.ofNat (48 + n)

/-- Fuel-driven decimal rendering; the fuel only bounds the recursion depth
(any fuel of at least the number of digits gives the same result). -/
def natDigitsAux : Nat → Nat → Str
  | 0, n => [digitChar n]
  | fuel + 1, n =>
    if n < 10 then [digitChar n]
    else natDigitsAux fuel (n / 10) ++ [digitChar (n % 10)]

/-- Decimal rendering of a natural number, as performed by JavaScript template
interpolation of `response.status`. -/
def natDigits (n : Nat) : Str := natDigitsAux n n

/-- Lexicographic code-point order on strings.  Models the comparator
`a.label.localeCompare(b.label)` of the tag aggregator: for the lower-cased
ASCII tag labels the site produces, the `en` locale collation agrees with
code-point order. -/
def strLe : Str → Str → Bool
  | [], _ => true
  | _ :: _, [] => false
  | a :: as, b :: bs =>
    if a.toNat < b.toNat then true
    else if b.toNat < a.toNat then false
    else strLe as bs

/-- One insertion into a JavaScript `Set` (in insertion order, ignoring
elements already present). -/
def setAdd (acc : List Str) (x : Str) : List Str :=
  if x ∈ acc then acc else acc ++ [x]

/-- `Array.from(new Set(l))`: deduplicate keeping first occurrences, in
insertion order. -/
def jsSetOfList (l : List Str) : List Str :=
  l.foldl setAdd []

/-! ## Data model (`src/types/github.ts`) -/

/-- Raw repository record as returned by the GitHub listing API
(`GitHubRepo` in `src/types/github.ts`).  `updated_at` is modelled as the
parsed epoch-milliseconds timestamp. -/
structure GitHubRepo where
  id : Nat
  name : Str
  html_url : Str
  description : Option Str
  stargazers_count : Nat
  forks_count : Nat
  language : Option Str
  homepage : Option Str
  topics : Option (List Str)
  updated_at : Int
  archived : Bool
  fork : Bool
deriving DecidableEq

/-- Normalized record (`RepositoryWithTags`): all raw fields plus the
deduplicated lower-cased tag list and the resolved documentation link.
The normalizer always produces a string `docsUrl`, so it is modelled as
`Str` rather than `Option Str`. -/
structure RepositoryWithTags extends GitHubRepo where
  allTags : List Str
  docsUrl : Str
deriving DecidableEq

/-- One entry of the derived tag index (`TagMeta` in `TagFilter.tsx`). -/
structure TagMeta where
  label : Str
  count : Nat
deriving DecidableEq

/-! ## Record normalizer (`normalise` in `useGitHubRepos.ts`) -/

/-- The fragment appended to the canonical URL when no homepage is set. -/
def readmeFragment : Str := "#readme".toList

/-- `normalise`: lower-case and deduplicate the topics into `allTags`, and
resolve `docsUrl` to the trimmed homepage when non-empty, otherwise to the
canonical URL with `#readme` appended. -/
def normalise (repo : GitHubRepo) : RepositoryWithTags :=
  let repoTopics := repo.topics.getD []
  let normalisedTopics := repoTopics.map lowerStr
  let homepage := match repo.homepage with
    | some h => trim h
    | none => []
  let docsUrl := if 0 < homepage.length then homepage else repo.html_url ++ readmeFragment
  { toGitHubRepo := repo
    allTags := jsSetOfList normalisedTopics
    docsUrl := docsUrl }

/-! ## Pagination fetcher (the `while` loop of `loadRepositories`) -/

/-- Fixed page size of the listing requests. -/
def PER_PAGE : Nat := 100

/-- The pagination loop of `loadRepositories`, run against a scenario giving
the server's response to page 1, page 2, ….  Starting from the head, each
page's records are appended to the aggregate; a page with fewer than
`PER_PAGE` records is the last one.  Returns the aggregated records together
with the number of pages requested, or `none` when the scenario does not
list enough pages to reach a short page (the loop would request a page the
scenario leaves unspecified). -/
def loadPages (pages : List (List GitHubRepo)) : Option (List GitHubRepo × Nat) :=
  match pages with
  | [] => none
  | p :: ps =>
    if p.length < PER_PAGE then some (p, 1)
    else
      match loadPages ps with
      | none => none
      | some (rest, n) => some (p ++ rest, n + 1)

/-- The pagination loop when a page request may fail (`fetchPage` throwing on
a non-success HTTP response): the first failing page aborts the whole cycle
with its error, discarding every record aggregated so far. -/
def runPages (pages : List (Except Str (List GitHubRepo))) :
    Option (Except Str (List GitHubRepo)) :=
  match pages with
  | [] => none
  | .error e :: _ => some (.error e)
  | .ok p :: ps =>
    if p.length < PER_PAGE then some (.ok p)
    else
      match runPages ps with
      | none => none
      | some (.error e) => some (.error e)
      | some (.ok rest) => some (.ok (p ++ rest))

/-! ## Error message construction (`fetchPage` failure branch) -/

/-- JavaScript template interpolation of a possibly-`null` string
(`null` prints as `"null"`). -/
def showOpt (o : Option Str) : Str := o.getD "null".toList

/-- The `rateInfo` local of `fetchPage`: defined only when the
`x-ratelimit-remaining` header is present and truthy (a non-empty string). -/
def rateInfo (remaining reset : Option Str) : Option Str :=
  match remaining with
  | some r =>
    if 0 < r.length then
      some ("Rate limit remaining: ".toList ++ r ++ ". Resets at: ".toList ++ showOpt reset)
    else none
  | none => none

/-- The error message thrown by `fetchPage` on a non-success response with
the given status and rate-limit headers. -/
def errorMessage (status : Nat) (remaining reset : Option Str) : Str :=
  trim ("Failed to fetch repositories (status ".toList ++ natDigits status
    ++ "). ".toList ++ (rateInfo remaining reset).getD [])

/-! ## Repository store (`useGitHubRepos` state and resolution) -/

/-- The inclusion-flag configuration of the hook
(`includeForks`/`includeArchived`, both defaulting to `false`). -/
structure Config where
  includeForks : Bool := false
  includeArchived : Bool := false
deriving DecidableEq

/-- The hook's state triple: `repositories`, `isLoading`, `error`. -/
structure StoreState where
  repositories : List RepositoryWithTags
  isLoading : Bool
  error : Option Str
deriving DecidableEq

/-- The inclusion filter applied to the aggregated raw records: drop forks
unless `includeForks`, drop archived records unless `includeArchived`. -/
def keep (cfg : Config) (repo : GitHubRepo) : Bool :=
  if !cfg.includeForks && repo.fork then false
  else if !cfg.includeArchived && repo.archived then false
  else true

/-- Descending-recency comparator of `loadRepositories`: `a` sorts before `b`
when `new Date(b.updated_at).getTime() - new Date(a.updated_at).getTime()`
is non-positive.  JavaScript `Array.prototype.sort` is a stable sort, modelled
by `List.mergeSort`. -/
def byRecency (a b : RepositoryWithTags) : Bool :=
  b.updated_at ≤ a.updated_at

/-- The synchronous success-path processing of `loadRepositories`: inclusion
filter, then normalization, then the stable descending sort by `updated_at`. -/
def processRecords (cfg : Config) (aggregated : List GitHubRepo) :
    List RepositoryWithTags :=
  ((aggregated.filter (keep cfg)).map normalise).mergeSort byRecency

/-- The synchronous prologue of a fetch cycle, run before the first request:
set the loading flag and clear any prior error. -/
def startLoad (s : StoreState) : StoreState :=
  { s with isLoading := true, error := none }

/-- The resolution of a fetch cycle.  `cancelled` is the value of the
effect's cancellation flag when the cycle resolves (the post-loop check, the
`catch` check and the `finally` check run in one synchronous block, so they
observe one value).  On success and not cancelled, store the processed
collection and clear loading; on failure and not cancelled, store the error
message and clear loading; when cancelled, touch nothing. -/
def resolveLoad (cancelled : Bool) (cfg : Config)
    (outcome : Except Str (List GitHubRepo)) (s : StoreState) : StoreState :=
  match outcome with
  | .ok aggregated =>
    if cancelled then s
    else { s with repositories := processRecords cfg aggregated, isLoading := false }
  | .error msg =>
    if cancelled then s
    else { s with error := some msg, isLoading := false }

/-! ## Tag aggregator (the `tags` memo of `App.tsx`) -/

/-- Lookup in the model of a JavaScript `Map` (association list in insertion
order): `counts.get(k)`. -/
def mapGet (m : List (Str × Nat)) (k : Str) : Option Nat :=
  (m.find? (fun e => e.1 = k)).map (·.2)

/-- `counts.set(k, v)` on the `Map` model: overwrite in place when the key is
present, otherwise append in insertion order. -/
def mapSet (m : List (Str × Nat)) (k : Str) (v : Nat) : List (Str × Nat) :=
  match m with
  | [] => [(k, v)]
  | e :: t => if e.1 = k then (k, v) :: t else e :: mapSet t k v

/-- One step of the counting pass of the `tags` memo:
`counts.set(k, (counts.get(k) ?? 0) + 1)`. -/
def countStep (counts : List (Str × Nat)) (k : Str) : List (Str × Nat) :=
  mapSet counts k ((mapGet counts k).getD 0 + 1)

/-- The counting pass of the `tags` memo: for each repository and each of its
`allTags` entries, increment the count of the lower-cased tag. -/
def tagCounts (repositories : List RepositoryWithTags) : List (Str × Nat) :=
  repositories.foldl
    (fun counts repo =>
      repo.allTags.foldl (fun counts tag => countStep counts (lowerStr tag)) counts)
    []

/-- The `tags` memo: the count map's entries, sorted by label with the
locale comparator (stable sort). -/
def tags (repositories : List RepositoryWithTags) : List TagMeta :=
  ((tagCounts repositories).map (fun e => TagMeta.mk e.1 e.2)).mergeSort
    (fun a b => strLe a.label b.label)

/-! ## Filter engine (the `filteredRepositories` memo of `App.tsx`) -/

/-- The visibility predicate of `filteredRepositories`: the active-tag clause
(exact containment in `allTags`) and, when the trimmed search term is
non-empty, the substring clause over lower-cased name, lower-cased
description (empty when absent) and the tags as stored. -/
def filterPred (activeTag : Option Str) (searchTerm : Str)
    (repo : RepositoryWithTags) : Bool :=
  let matchesTag := match activeTag with
    | some t => decide (t ∈ repo.allTags)
    | none => true
  if !matchesTag then false
  else if (trim searchTerm).length = 0 then true
  else
    let query := lowerStr searchTerm
    decide (query <:+: lowerStr repo.name)
    || decide (query <:+: lowerStr (repo.description.getD []))
    || repo.allTags.any (fun tag => decide (query <:+: tag))

/-- The `filteredRepositories` memo: the collection filtered by the
visibility predicate. -/
def filteredRepositories (repositories : List RepositoryWithTags)
    (activeTag : Option Str) (searchTerm : Str) : List RepositoryWithTags :=
  repositories.filter (filterPred activeTag searchTerm)

/-- The keys of the `Map` model, in insertion order. -/
def mapKeys (m : List (Str × Nat)) : List Str := m.map Prod.fst

/-- The flat list of lower-cased tag occurrences the counting pass walks. -/
def tagOccurrences (repositories : List RepositoryWithTags) : List Str :=
  (repositories.map (fun r => r.allTags.map lowerStr)).flatten

/-! ## Concrete sample data for evaluating the model -/

/-- A minimal raw record used to build concrete scenarios. -/
def sampleRepo : GitHubRepo :=
  { id := 0
    name := "repo".toList
    html_url := "https://github.com/user/repo".toList
    description := none
    stargazers_count := 0
    forks_count := 0
    language := none
    homepage := none
    topics := none
    updated_at := 0
    archived := false
    fork := false }

/-- A record carrying the lone topic `ml`. -/
def sampleMl : GitHubRepo := { sampleRepo with id := 1, topics := some ["ml".toList] }

/-- A record carrying topics `ml` and `cv`. -/
def sampleMlCv : GitHubRepo :=
  { sampleRepo with id := 2, topics := some ["ml".toList, "cv".toList] }

/-- A record whose topics repeat a tag in different case. -/
def sampleCaseDup : GitHubRepo :=
  { sampleRepo with id := 3, topics := some ["CV".toList, "cv".toList] }

/-- A record with a homepage that is non-empty after trimming. -/
def sampleHomepage : GitHubRepo :=
  { sampleRepo with id := 4, homepage := some "  https://docs.example  ".toList }

/-- Records with timestamps 5, 2, 2 (the last two tie). -/
def sampleT1 : GitHubRepo := { sampleRepo with id := 5, updated_at := 5 }

/-- See `sampleT1`. -/
def sampleT2 : GitHubRepo := { sampleRepo with id := 6, updated_at := 2 }

/-- See `sampleT1`. -/
def sampleT3 : GitHubRepo := { sampleRepo with id := 7, updated_at := 2 }

/-- A store state holding one previously loaded record. -/
def sampleState : StoreState :=
  { repositories := [normalise sampleMl], isLoading := true, error := none }

/-! ## Helper lemmas: characters and strings -/

theorem toNat_charOfNat (n : Nat) (h : n < 55296) : (Char.ofNat n).toNat = n := by
  have hv : n.isValidChar := Or.inl h
  simp only [Char.ofNat, hv, dite_true, dif_pos]
  simp [Char.ofNatAux, Char.toNat, UInt32.toNat, BitVec.toNat_ofNatLt]

theorem lowerChar_of_upper (c : Char) (h : 65 ≤ c.toNat ∧ c.toNat ≤ 90) :
    lowerChar c = Char.ofNat (c.toNat + 32) := by
  simp [lowerChar, h]

theorem lowerChar_of_not_upper (c : Char) (h : ¬(65 ≤ c.toNat ∧ c.toNat ≤ 90)) :
    lowerChar c = c := by
  simp [lowerChar, h]

theorem lowerChar_idem (c : Char) : lowerChar (lowerChar c) = lowerChar c := by
  by_cases h : 65 ≤ c.toNat ∧ c.toNat ≤ 90
  · rw [lowerChar_of_upper c h]
    apply lowerChar_of_not_upper
    rw [toNat_charOfNat (c.toNat + 32) (by omega)]
    omega
  · rw [lowerChar_of_not_upper c h]
    exact lowerChar_of_not_upper c h

theorem lowerStr_idem (s : Str) : lowerStr (lowerStr s) = lowerStr s := by
  simp only [lowerStr, List.map_map]
  exact List.map_congr_left (fun c _ => lowerChar_idem c)

theorem ltrim_append_of (x y : Str) (hne : x ≠ []) (hx : ltrim x = x) :
    ltrim (x ++ y) = x ++ y := by
  unfold ltrim at *
  rw [List.dropWhile_append, hx]
  simp [List.isEmpty_iff, hne]

theorem rtrim_append (x y : Str) :
    rtrim (x ++ y) = if rtrim y = [] then rtrim x else x ++ rtrim y := by
  unfold rtrim
  rw [List.reverse_append, List.dropWhile_append]
  by_cases h : (List.dropWhile isWS y.reverse).isEmpty = true
  · rw [if_pos h]
    rw [List.isEmpty_iff] at h
    rw [if_pos (by rw [h, List.reverse_nil])]
  · rw [if_neg h]
    rw [List.isEmpty_iff] at h
    rw [if_neg (by simp [h]), List.reverse_append, List.reverse_reverse]

theorem trim_of_head (x y : Str) (hne : x ≠ []) (hx : ltrim x = x) :
    trim (x ++ y) = rtrim (x ++ y) := by
  unfold trim
  rw [ltrim_append_of x y hne hx]

/-! ## Helper lemmas: the label order and the recency comparator -/

theorem strLe_total : ∀ a b : Str, (strLe a b || strLe b a) = true := by
  intro a
  induction a with
  | nil => intro b; simp [strLe]
  | cons x xs ih =>
    intro b
    cases b with
    | nil => simp [strLe]
    | cons y ys =>
      simp only [strLe]
      by_cases h1 : x.toNat < y.toNat
      · simp [h1]
      · by_cases h2 : y.toNat < x.toNat
        · simp [h1, h2]
        · simp only [if_neg h1, if_neg h2]
          exact ih ys

theorem strLe_cons_iff (x y : Char) (xs ys : Str) :
    strLe (x :: xs) (y :: ys) = true ↔
      x.toNat < y.toNat ∨ (x.toNat = y.toNat ∧ strLe xs ys = true) := by
  simp only [strLe]
  by_cases h1 : x.toNat < y.toNat
  · simp [h1]
  · by_cases h2 : y.toNat < x.toNat
    · simp only [if_neg h1, if_pos h2]
      constructor
      · intro h; cases h
      · intro h; omega
    · have hxy : x.toNat = y.toNat := by omega
      simp [h1, h2, hxy]

theorem strLe_trans :
    ∀ a b c : Str, strLe a b = true → strLe b c = true → strLe a c = true := by
  intro a
  induction a with
  | nil => intro b c _ _; simp [strLe]
  | cons x xs ih =>
    intro b c hab hbc
    cases b with
    | nil => simp [strLe] at hab
    | cons y ys =>
      cases c with
      | nil => simp [strLe] at hbc
      | cons z zs =>
        rw [strLe_cons_iff] at hab hbc ⊢
        rcases hab with hab | ⟨hab1, hab2⟩
        · rcases hbc with hbc | ⟨hbc1, _⟩
          · exact Or.inl (by omega)
          · exact Or.inl (by omega)
        · rcases hbc with hbc | ⟨hbc1, hbc2⟩
          · exact Or.inl (by omega)
          · exact Or.inr ⟨by omega, ih ys zs hab2 hbc2⟩

theorem byRecency_total : ∀ a b : RepositoryWithTags, (byRecency a b || byRecency b a) = true := by
  intro a b
  simp only [byRecency, Bool.or_eq_true, decide_eq_true_eq]
  omega

theorem byRecency_trans :
    ∀ a b c : RepositoryWithTags, byRecency a b = true → byRecency b c = true →
      byRecency a c = true := by
  intro a b c hab hbc
  simp only [byRecency, decide_eq_true_eq] at hab hbc ⊢
  omega

/-! ## Helper lemmas: `Set` deduplication -/

theorem mem_setAdd (acc : List Str) (x y : Str) :
    y ∈ setAdd acc x ↔ y ∈ acc ∨ y = x := by
  unfold setAdd
  by_cases h : x ∈ acc
  · rw [if_pos h]
    constructor
    · exact Or.inl
    · rintro (hy | rfl)
      · exact hy
      · exact h
  · rw [if_neg h]
    simp

theorem nodup_setAdd (acc : List Str) (x : Str) (h : acc.Nodup) :
    (setAdd acc x).Nodup := by
  unfold setAdd
  by_cases hx : x ∈ acc
  · rwa [if_pos hx]
  · rw [if_neg hx]
    simp [List.nodup_append, h, hx]

theorem mem_foldl_setAdd (l : List Str) :
    ∀ acc x, x ∈ l.foldl setAdd acc ↔ x ∈ acc ∨ x ∈ l := by
  induction l with
  | nil => intro acc x; simp
  | cons a t ih =>
    intro acc x
    rw [List.foldl_cons, ih, mem_setAdd]
    simp only [List.mem_cons]
    tauto

theorem nodup_foldl_setAdd (l : List Str) :
    ∀ acc, acc.Nodup → (l.foldl setAdd acc).Nodup := by
  induction l with
  | nil => intro acc h; simpa
  | cons a t ih =>
    intro acc h
    exact ih _ (nodup_setAdd acc a h)

theorem mem_jsSetOfList (l : List Str) (x : Str) : x ∈ jsSetOfList l ↔ x ∈ l := by
  rw [jsSetOfList, mem_foldl_setAdd]
  simp

theorem nodup_jsSetOfList (l : List Str) : (jsSetOfList l).Nodup :=
  nodup_foldl_setAdd l [] List.nodup_nil

/-! ## Helper lemmas: the `Map` model and the counting pass -/

theorem mapGet_mapSet_self (m : List (Str × Nat)) (k : Str) (v : Nat) :
    mapGet (mapSet m k v) k = some v := by
  induction m with
  | nil => simp [mapSet, mapGet, List.find?]
  | cons e t ih =>
    by_cases h : e.1 = k
    · simp [mapSet, h, mapGet, List.find?]
    · simp only [mapSet, if_neg h]
      simp only [mapGet, List.find?_cons] at ih ⊢
      have : (decide (e.1 = k)) = false := by simp [h]
      rw [this]
      exact ih

theorem mapGet_mapSet_ne (m : List (Str × Nat)) (k k' : Str) (v : Nat) (h : k' ≠ k) :
    mapGet (mapSet m k v) k' = mapGet m k' := by
  induction m with
  | nil =>
    simp only [mapSet, mapGet, List.find?]
    have : (decide (k = k')) = false := by simp [Ne.symm h]
    simp [this]
  | cons e t ih =>
    by_cases he : e.1 = k
    · simp only [mapSet, if_pos he]
      simp only [mapGet, List.find?_cons]
      have h1 : (decide (k = k')) = false := by simp [Ne.symm h]
      have h2 : (decide (e.1 = k')) = false := by simp [he, Ne.symm h]
      rw [h1, h2]
    · simp only [mapSet, if_neg he]
      simp only [mapGet, List.find?_cons] at ih ⊢
      cases hd : (decide (e.1 = k')) <;> simp [hd, ih]

theorem mapKeys_mapSet (m : List (Str × Nat)) (k : Str) (v : Nat) :
    mapKeys (mapSet m k v) =
      if k ∈ mapKeys m then mapKeys m else mapKeys m ++ [k] := by
  induction m with
  | nil => simp [mapSet, mapKeys]
  | cons e t ih =>
    by_cases he : e.1 = k
    · simp [mapSet, he, mapKeys]
    · simp only [mapSet, if_neg he, mapKeys, List.map_cons] at ih ⊢
      rw [ih]
      by_cases hk : k ∈ List.map Prod.fst t
      · simp [hk, List.mem_cons, Ne.symm he]
      · have : ¬ (k = e.1 ∨ k ∈ List.map Prod.fst t) := by
          rintro (rfl | h)
          · exact he rfl
          · exact hk h
        simp only [if_pos hk, List.mem_cons, if_neg this, if_neg hk]
        rfl

theorem mapGet_isSome_iff (m : List (Str × Nat)) (k : Str) :
    (mapGet m k).isSome = true ↔ k ∈ mapKeys m := by
  induction m with
  | nil => simp [mapGet, mapKeys, List.find?]
  | cons e t ih =>
    simp only [mapGet, List.find?_cons, mapKeys, List.map_cons, List.mem_cons] at ih ⊢
    cases hd : (decide (e.1 = k)) with
    | true =>
      simp only [Option.isSome_some, Option.map_some]
      simp only [decide_eq_true_eq] at hd
      simp [hd]
    | false =>
      simp only [decide_eq_false_iff_not] at hd
      simp only [ih]
      constructor
      · exact Or.inr
      · rintro (rfl | h)
        · exact absurd rfl hd
        · exact h

theorem mapGet_eq_of_mem (m : List (Str × Nat)) (k : Str) (v : Nat)
    (hnd : (mapKeys m).Nodup) (hmem : (k, v) ∈ m) : mapGet m k = some v := by
  induction m with
  | nil => cases hmem
  | cons e t ih =>
    simp only [mapKeys, List.map_cons, List.nodup_cons] at hnd
    rcases List.mem_cons.mp hmem with rfl | hmem'
    · simp [mapGet, List.find?_cons]
    · have hne : e.1 ≠ k := by
        intro h
        exact hnd.1 (h ▸ (List.mem_map.mpr ⟨(k, v), hmem', rfl⟩))
      simp only [mapGet, List.find?_cons]
      have : (decide (e.1 = k)) = false := by simp [hne]
      rw [this]
      exact ih hnd.2 hmem'

theorem foldl_countStep_get (L : List Str) :
    ∀ (m : List (Str × Nat)) (t : Str),
      mapGet (L.foldl countStep m) t =
        if t ∈ L ∨ (mapGet m t).isSome then some ((mapGet m t).getD 0 + L.count t) else none := by
  induction L with
  | nil =>
    intro m t
    simp only [List.foldl_nil, List.not_mem_nil, false_or, List.count_nil]
    cases h : mapGet m t <;> simp [h]
  | cons a L ih =>
    intro m t
    rw [List.foldl_cons, ih]
    simp only [countStep]
    by_cases hta : t = a
    · subst hta
      rw [mapGet_mapSet_self]
      simp only [Option.isSome_some, or_true, if_pos, List.mem_cons, true_or,
        Option.getD_some, List.count_cons, beq_self_eq_true, if_true]
      congr 1
      omega
    · rw [mapGet_mapSet_ne m a t _ hta]
      have hcnt : List.count t (a :: L) = List.count t L := by
        rw [List.count_cons]
        simp [Ne.symm hta]
      have hmem : (t ∈ a :: L ∨ (mapGet m t).isSome) ↔ (t ∈ L ∨ (mapGet m t).isSome) := by
        simp [List.mem_cons, hta]
      rw [hcnt]
      by_cases hc : t ∈ L ∨ (mapGet m t).isSome
      · rw [if_pos hc, if_pos (hmem.mpr hc)]
      · rw [if_neg hc, if_neg (fun h => hc (hmem.mp h))]

theorem foldl_countStep_keys (L : List Str) :
    ∀ m, mapKeys (L.foldl countStep m) = L.foldl setAdd (mapKeys m) := by
  induction L with
  | nil => intro m; rfl
  | cons a L ih =>
    intro m
    rw [List.foldl_cons, List.foldl_cons, ih]
    congr 1
    rw [countStep, mapKeys_mapSet, setAdd]

theorem tagCounts_eq_countFold (repositories : List RepositoryWithTags) :
    tagCounts repositories = (tagOccurrences repositories).foldl countStep [] := by
  rw [tagOccurrences, List.foldl_flatten, List.foldl_map]
  unfold tagCounts
  congr 1
  funext counts repo
  rw [List.foldl_map]

theorem mapKeys_tagCounts (repositories : List RepositoryWithTags) :
    mapKeys (tagCounts repositories) = jsSetOfList (tagOccurrences repositories) := by
  rw [tagCounts_eq_countFold, foldl_countStep_keys]
  rfl

theorem mapGet_tagCounts (repositories : List RepositoryWithTags) (t : Str) :
    mapGet (tagCounts repositories) t =
      if t ∈ tagOccurrences repositories
      then some ((tagOccurrences repositories).count t) else none := by
  rw [tagCounts_eq_countFold, foldl_countStep_get]
  simp [mapGet, List.find?]

theorem count_eq_one_of_nodup {l : List Str} {t : Str} (hnd : l.Nodup) (hmem : t ∈ l) :
    List.count t l = 1 := by
  induction l with
  | nil => cases hmem
  | cons a l ih =>
    rw [List.count_cons]
    rcases List.mem_cons.mp hmem with rfl | hm
    · rw [List.count_eq_zero.mpr (List.nodup_cons.mp hnd).1]
      simp
    · have hne : a ≠ t := fun h => (List.nodup_cons.mp hnd).1 (h ▸ hm)
      rw [ih (List.nodup_cons.mp hnd).2 hm]
      simp [hne]

theorem count_tagOccurrences (repositories : List RepositoryWithTags) (t : Str)
    (hN : ∀ r ∈ repositories, r.allTags.Nodup)
    (hL : ∀ r ∈ repositories, ∀ u ∈ r.allTags, lowerStr u = u) :
    (tagOccurrences repositories).count t =
      (repositories.filter (fun r => decide (t ∈ r.allTags))).length := by
  induction repositories with
  | nil => simp [tagOccurrences]
  | cons r rs ih =>
    have hmap : r.allTags.map lowerStr = r.allTags := by
      have : r.allTags.map lowerStr = r.allTags.map id :=
        List.map_congr_left (fun u hu => hL r (List.mem_cons_self r rs) u hu)
      simpa using this
    have hocc : tagOccurrences (r :: rs) = r.allTags ++ tagOccurrences rs := by
      rw [tagOccurrences, List.map_cons, List.flatten_cons, hmap]
      rfl
    rw [hocc, List.count_append]
    rw [ih (fun x hx => hN x (List.mem_cons_of_mem r hx))
        (fun x hx => hL x (List.mem_cons_of_mem r hx))]
    by_cases hmem : t ∈ r.allTags
    · rw [count_eq_one_of_nodup (hN r (List.mem_cons_self r rs)) hmem]
      simp only [List.filter_cons]
      rw [if_pos (by simp [hmem] : (decide (t ∈ r.allTags)) = true), List.length_cons]
      omega
    · rw [List.count_eq_zero.mpr hmem]
      simp only [List.filter_cons]
      simp only [if_neg (by simp [hmem] : ¬(decide (t ∈ r.allTags)) = true)]
      omega

theorem mem_tagOccurrences (repositories : List RepositoryWithTags) (t : Str)
    (hL : ∀ r ∈ repositories, ∀ u ∈ r.allTags, lowerStr u = u) :
    t ∈ tagOccurrences repositories ↔ ∃ r ∈ repositories, t ∈ r.allTags := by
  rw [tagOccurrences]
  rw [List.mem_flatten]
  constructor
  · rintro ⟨l, hl, htl⟩
    rcases List.mem_map.mp hl with ⟨r, hr, rfl⟩
    have hmap : r.allTags.map lowerStr = r.allTags := by
      have : r.allTags.map lowerStr = r.allTags.map id :=
        List.map_congr_left (fun u hu => hL r hr u hu)
      simpa using this
    exact ⟨r, hr, hmap ▸ htl⟩
  · rintro ⟨r, hr, htr⟩
    refine ⟨r.allTags.map lowerStr, List.mem_map.mpr ⟨r, hr, rfl⟩, ?_⟩
    have hmap : r.allTags.map lowerStr = r.allTags := by
      have : r.allTags.map lowerStr = r.allTags.map id :=
        List.map_congr_left (fun u hu => hL r hr u hu)
      simpa using this
    rw [hmap]
    exact htr

/-! ## Helper lemmas: pagination -/

theorem loadPages_append (fulls : List (List GitHubRepo)) (lastPage : List GitHubRepo)
    (rest : List (List GitHubRepo))
    (hf : ∀ p ∈ fulls, PER_PAGE ≤ p.length) (hs : lastPage.length < PER_PAGE) :
    loadPages (fulls ++ lastPage :: rest) =
      some (fulls.flatten ++ lastPage, fulls.length + 1) := by
  induction fulls with
  | nil =>
    simp only [List.nil_append, loadPages, if_pos hs, List.flatten_nil, List.length_nil]
  | cons p ps ih =>
    have hp : ¬ p.length < PER_PAGE := by
      have := hf p (List.mem_cons_self p ps)
      omega
    rw [List.cons_append]
    simp only [loadPages, if_neg hp]
    rw [ih (fun q hq => hf q (List.mem_cons_of_mem p hq))]
    simp [List.flatten_cons, List.append_assoc]

theorem runPages_error (fulls : List (List GitHubRepo)) (e : Str)
    (rest : List (Except Str (List GitHubRepo)))
    (hf : ∀ p ∈ fulls, PER_PAGE ≤ p.length) :
    runPages (fulls.map Except.ok ++ Except.error e :: rest) = some (Except.error e) := by
  induction fulls with
  | nil => rfl
  | cons p ps ih =>
    have hp : ¬ p.length < PER_PAGE := by
      have := hf p (List.mem_cons_self p ps)
      omega
    rw [List.map_cons, List.cons_append]
    simp only [runPages, if_neg hp]
    rw [ih (fun q hq => hf q (List.mem_cons_of_mem p hq))]

/-! ## Helper lemmas: the failure message -/

theorem rtrim_append_of_ne (x y : Str) (hy : rtrim y ≠ []) :
    rtrim (x ++ y) = x ++ rtrim y := by
  rw [rtrim_append, if_neg hy]

theorem errorMessage_no_rate (status : Nat) (remaining reset : Option Str)
    (h : rateInfo remaining reset = none) :
    errorMessage status remaining reset =
      "Failed to fetch repositories (status ".toList ++ natDigits status
        ++ ").".toList := by
  have hB : rtrim ("). ".toList) = ").".toList := by decide
  have hDB : rtrim (natDigits status ++ "). ".toList)
      = natDigits status ++ ").".toList := by
    rw [rtrim_append_of_ne _ _ (by rw [hB]; decide), hB]
  rw [errorMessage, h, Option.getD_none, List.append_nil]
  simp only [List.append_assoc]
  rw [trim_of_head ("Failed to fetch repositories (status ".toList)
    (natDigits status ++ "). ".toList) (by decide) (by decide)]
  rw [rtrim_append_of_ne ("Failed to fetch repositories (status ".toList)
    (natDigits status ++ "). ".toList)
    (by rw [hDB]; exact List.append_ne_nil_of_right_ne_nil _ (by decide))]
  rw [hDB]

theorem errorMessage_with_rate (status : Nat) (r : Str) (reset : Option Str)
    (hr : 0 < r.length) :
    errorMessage status (some r) reset =
      "Failed to fetch repositories (status ".toList ++ natDigits status
        ++ "). Rate limit remaining: ".toList ++ r
        ++ rtrim (". Resets at: ".toList ++ showOpt reset) := by
  have h1 : rtrim (". Resets at: ".toList ++ showOpt reset) ≠ [] := by
    rw [rtrim_append]
    by_cases h : rtrim (showOpt reset) = []
    · rw [if_pos h]; decide
    · rw [if_neg h]
      intro hc
      rcases List.append_eq_nil.mp hc with ⟨h2, _⟩
      cases h2
  have h2 : rtrim (r ++ (". Resets at: ".toList ++ showOpt reset))
      = r ++ rtrim (". Resets at: ".toList ++ showOpt reset) :=
    rtrim_append_of_ne _ _ h1
  have h2n : rtrim (r ++ (". Resets at: ".toList ++ showOpt reset)) ≠ [] := by
    rw [h2]; exact List.append_ne_nil_of_right_ne_nil _ h1
  have h3 : rtrim ("Rate limit remaining: ".toList
        ++ (r ++ (". Resets at: ".toList ++ showOpt reset)))
      = "Rate limit remaining: ".toList
        ++ (r ++ rtrim (". Resets at: ".toList ++ showOpt reset)) := by
    rw [rtrim_append_of_ne _ _ h2n, h2]
  have h3n : rtrim ("Rate limit remaining: ".toList
        ++ (r ++ (". Resets at: ".toList ++ showOpt reset))) ≠ [] := by
    rw [h3]
    exact List.append_ne_nil_of_right_ne_nil _
      (List.append_ne_nil_of_right_ne_nil _ h1)
  have h4 : rtrim ("). ".toList ++ ("Rate limit remaining: ".toList
        ++ (r ++ (". Resets at: ".toList ++ showOpt reset))))
      = "). ".toList ++ ("Rate limit remaining: ".toList
        ++ (r ++ rtrim (". Resets at: ".toList ++ showOpt reset))) := by
    rw [rtrim_append_of_ne _ _ h3n, h3]
  have h4n : rtrim ("). ".toList ++ ("Rate limit remaining: ".toList
        ++ (r ++ (". Resets at: ".toList ++ showOpt reset)))) ≠ [] := by
    rw [h4]
    intro hc
    rcases List.append_eq_nil.mp hc with ⟨hh, _⟩
    cases hh
  have h5 : rtrim (natDigits status ++ ("). ".toList ++ ("Rate limit remaining: ".toList
        ++ (r ++ (". Resets at: ".toList ++ showOpt reset)))))
      = natDigits status ++ ("). ".toList ++ ("Rate limit remaining: ".toList
        ++ (r ++ rtrim (". Resets at: ".toList ++ showOpt reset)))) := by
    rw [rtrim_append_of_ne _ _ h4n, h4]
  have h5n : rtrim (natDigits status ++ ("). ".toList ++ ("Rate limit remaining: ".toList
        ++ (r ++ (". Resets at: ".toList ++ showOpt reset))))) ≠ [] := by
    rw [h5]
    refine List.append_ne_nil_of_right_ne_nil _ ?_
    intro hc
    rcases List.append_eq_nil.mp hc with ⟨hh, _⟩
    cases hh
  rw [errorMessage, rateInfo, if_pos hr]
  simp only [Option.getD_some, List.append_assoc]
  rw [trim_of_head ("Failed to fetch repositories (status ".toList)
    (natDigits status ++ ("). ".toList ++ ("Rate limit remaining: ".toList
      ++ (r ++ (". Resets at: ".toList ++ showOpt reset))))) (by decide) (by decide)]
  rw [rtrim_append_of_ne ("Failed to fetch repositories (status ".toList)
    (natDigits status ++ ("). ".toList ++ ("Rate limit remaining: ".toList
      ++ (r ++ (". Resets at: ".toList ++ showOpt reset))))) h5n]
  rw [h5]
  rw [← List.append_assoc ("). ".toList) ("Rate limit remaining: ".toList)
    (r ++ rtrim (". Resets at: ".toList ++ showOpt reset))]
  rw [show ("). ".toList ++ "Rate limit remaining: ".toList : Str)
      = "). Rate limit remaining: ".toList from by decide]

/-! ## Claim theorems -/

/-- C4: when the cancellation flag of a fetch cycle is set before the cycle
resolves, the resolution performs no state mutation at all: the Collection,
the error and the loading flag all keep their values, whether the cycle
resolved with data or with a failure (and `resolveLoad` is a total function,
so no exception propagates). -/
theorem resolveLoad_cancelled_no_mutation (cfg : Config)
    (outcome : Except Str (List GitHubRepo)) (s : StoreState) :
    resolveLoad true cfg outcome s = s := by
  cases outcome <;> simp [resolveLoad]

/-- C9: normalization is idempotent — feeding a normalized record back
through `normalise` yields identical `allTags` and identical `docsUrl`. -/
theorem normalise_idempotent (repo : GitHubRepo) :
    (normalise (normalise repo).toGitHubRepo).allTags = (normalise repo).allTags ∧
    (normalise (normalise repo).toGitHubRepo).docsUrl = (normalise repo).docsUrl :=
  ⟨rfl, rfl⟩

/-- C7: `docsUrl` is the trimmed homepage when the homepage is a string that
is non-empty after trimming, and otherwise the canonical URL with `#readme`
appended; it is never the empty string. -/
theorem normalise_docsUrl (repo : GitHubRepo) :
    (∀ h, repo.homepage = some h → 0 < (trim h).length →
      (normalise repo).docsUrl = trim h) ∧
    (∀ h, repo.homepage = some h → (trim h).length = 0 →
      (normalise repo).docsUrl = repo.html_url ++ readmeFragment) ∧
    (repo.homepage = none →
      (normalise repo).docsUrl = repo.html_url ++ readmeFragment) ∧
    (normalise repo).docsUrl ≠ [] := by
  refine ⟨?_, ?_, ?_, ?_⟩
  · intro h hh hlen
    simp [normalise, hh, hlen]
  · intro h hh hlen
    simp [normalise, hh, hlen]
  · intro hh
    simp [normalise, hh]
  · rcases hh : repo.homepage with _ | h
    · simp only [normalise, hh]
      exact List.append_ne_nil_of_right_ne_nil _ (by decide)
    · simp only [normalise, hh]
      by_cases hlen : 0 < (trim h).length
      · rw [if_pos hlen]
        intro hc
        rw [hc] at hlen
        simp at hlen
      · rw [if_neg hlen]
        exact List.append_ne_nil_of_right_ne_nil _ (by decide)

/-- Witness for C7 at concrete records: a homepage trimmed to
`https://docs.example`, and no homepage falling back to the canonical URL
with `#readme`. -/
theorem normalise_docsUrl_witness :
    (normalise sampleHomepage).docsUrl = "https://docs.example".toList ∧
    (normalise sampleRepo).docsUrl
      = "https://github.com/user/repo#readme".toList := by
  constructor
  · have h := (normalise_docsUrl sampleHomepage).1 "  https://docs.example  ".toList
      (by decide) (by decide)
    rw [h]
    decide
  · have h := (normalise_docsUrl sampleRepo).2.2.1 (by decide)
    rw [h]
    decide

/-- C8: the `allTags` of every normalized record consist solely of
lower-cased strings and contain no duplicates (hence no case-insensitive
duplicates either). -/
theorem normalise_allTags_lower_nodup (repo : GitHubRepo) :
    (normalise repo).allTags.Nodup ∧
    ∀ t ∈ (normalise repo).allTags, lowerStr t = t := by
  constructor
  · exact nodup_jsSetOfList _
  · intro t ht
    have hmem : t ∈ (repo.topics.getD []).map lowerStr :=
      (mem_jsSetOfList _ t).mp ht
    rcases List.mem_map.mp hmem with ⟨u, _, rfl⟩
    exact lowerStr_idem u

/-- Witness for C8: topics `["CV","cv"]` normalize to the single tag `cv`,
and the theorem applies to conclude the result has no duplicates. -/
theorem normalise_allTags_witness :
    (normalise sampleCaseDup).allTags = ["cv".toList] ∧
    (normalise sampleCaseDup).allTags.Nodup :=
  ⟨by decide, (normalise_allTags_lower_nodup sampleCaseDup).1⟩

/-- C10: the filter engine returns an order-preserving subsequence of the
Collection, and with no active tag and a search string that trims to empty
it returns the Collection unchanged. -/
theorem filteredRepositories_subsequence (repositories : List RepositoryWithTags)
    (activeTag : Option Str) (searchTerm : Str) :
    (filteredRepositories repositories activeTag searchTerm).Sublist repositories ∧
    (activeTag = none → trim searchTerm = [] →
      filteredRepositories repositories activeTag searchTerm = repositories) := by
  constructor
  · exact List.filter_sublist repositories
  · rintro rfl hst
    apply List.filter_eq_self.mpr
    intro r _
    simp [filterPred, hst]

/-- Witness for C10: the empty filter state passes both sample records
through unchanged. -/
theorem filteredRepositories_subsequence_witness :
    filteredRepositories [normalise sampleMl, normalise sampleMlCv] none []
      = [normalise sampleMl, normalise sampleMlCv] :=
  (filteredRepositories_subsequence [normalise sampleMl, normalise sampleMlCv]
    none []).2 rfl (by decide)

/-- C1: the pagination loop requests pages sequentially from the head of the
scenario, stops after the first page with fewer than `PER_PAGE` records
(including that page's records), and returns the concatenation of all
requested pages together with the number of requests — so the fetch
terminates whenever some page is short. -/
theorem loadPages_sequential (fulls : List (List GitHubRepo))
    (lastPage : List GitHubRepo) (rest : List (List GitHubRepo))
    (hf : ∀ p ∈ fulls, PER_PAGE ≤ p.length) (hs : lastPage.length < PER_PAGE) :
    loadPages (fulls ++ lastPage :: rest) =
      some (fulls.flatten ++ lastPage, fulls.length + 1) :=
  loadPages_append fulls lastPage rest hf hs

set_option maxRecDepth 10000 in
/-- Witness for C1: pages of sizes `[100, 100, 37]` yield 237 aggregated
records in 3 requests, and a first page of size 0 yields 0 records in
1 request. -/
theorem loadPages_sequential_witness :
    loadPages [List.replicate 100 sampleRepo, List.replicate 100 sampleRepo,
        List.replicate 37 sampleRepo]
      = some (List.replicate 100 sampleRepo
          ++ (List.replicate 100 sampleRepo ++ List.replicate 37 sampleRepo), 3) ∧
    (List.replicate 100 sampleRepo
        ++ (List.replicate 100 sampleRepo ++ List.replicate 37 sampleRepo)).length = 237 ∧
    loadPages [([] : List GitHubRepo)] = some ([], 1) := by
  refine ⟨?_, by simp, ?_⟩
  · have h := loadPages_sequential
      [List.replicate 100 sampleRepo, List.replicate 100 sampleRepo]
      (List.replicate 37 sampleRepo) []
      (by
        intro p hp
        simp only [List.mem_cons, List.not_mem_nil, or_false] at hp
        rcases hp with rfl | rfl <;> simp [PER_PAGE])
      (by simp [PER_PAGE])
    simpa [List.flatten_cons, List.append_assoc] using h
  · have h := loadPages_sequential [] [] [] (by intro p hp; cases hp)
      (by simp [PER_PAGE])
    simpa using h

/-- C2 counterexample: for the normalized record with tags `["ml"]` and the
filter state with active tag `"ML"` and empty search, the tag clause of the
claim holds under a case-insensitive match and the search clause holds
(empty query), yet the record is not visible: the code matches the active
tag exactly (`allTags.includes(activeTag)`), not case-insensitively. -/
theorem filterPred_not_case_insensitive :
    (∃ t ∈ (normalise sampleMl).allTags, lowerStr t = lowerStr "ML".toList) ∧
    (trim []).length = 0 ∧
    filterPred (some "ML".toList) [] (normalise sampleMl) = false := by
  decide

/-- C2 (amended): a record is visible iff (1) no active tag is set or the
record's `allTags` contains the active tag as an exact string (for normalized
records the stored tags are lower-cased, so this is a case-insensitive match
exactly when the active tag is itself lower-cased, as the tag aggregator
produces), AND (2) the trimmed search string is empty or the lower-cased
query is a substring of the lower-cased name, of the lower-cased description
(empty when absent), or of one of the stored tags. -/
theorem filterPred_characterization (activeTag : Option Str) (searchTerm : Str)
    (repo : RepositoryWithTags) :
    filterPred activeTag searchTerm repo = true ↔
      ((∀ t, activeTag = some t → t ∈ repo.allTags) ∧
        ((trim searchTerm).length = 0 ∨
          (lowerStr searchTerm <:+: lowerStr repo.name ∨
            lowerStr searchTerm <:+: lowerStr (repo.description.getD []) ∨
            ∃ tag ∈ repo.allTags, lowerStr searchTerm <:+: tag))) := by
  cases activeTag with
  | none =>
    simp only [filterPred, Bool.not_true, Bool.false_eq_true, if_false,
      Option.some.injEq, reduceCtorEq, false_implies, forall_const, true_and]
    by_cases hq : (trim searchTerm).length = 0
    · simp [hq]
    · rw [if_neg hq]
      simp only [hq, false_or, Bool.or_eq_true, decide_eq_true_eq, List.any_eq_true]
      tauto
  | some t =>
    by_cases ht : t ∈ repo.allTags
    · have hm : (decide (t ∈ repo.allTags)) = true := by simp [ht]
      have h1 : (∀ t', some t = some t' → t' ∈ repo.allTags) := by
        intro t' h'
        cases h'
        exact ht
      simp only [filterPred, hm, Bool.not_true, Bool.false_eq_true, if_false]
      by_cases hq : (trim searchTerm).length = 0
      · simp [hq, h1]
      · rw [if_neg hq]
        simp only [h1, true_and, hq, false_or, Bool.or_eq_true, decide_eq_true_eq,
          List.any_eq_true]
        tauto
    · simp only [filterPred]
      rw [if_pos (by simp [ht])]
      constructor
      · intro h; cases h
      · rintro ⟨h1, _⟩
        exact absurd (h1 t rfl) ht

/-- Witness for C2 (amended): active tag `"ml"` and search `"ML"` keep the
record with tags `["ml","cv"]` visible. -/
theorem filterPred_characterization_witness :
    filterPred (some "ml".toList) "ML".toList (normalise sampleMlCv) = true := by
  apply (filterPred_characterization (some "ml".toList) "ML".toList
    (normalise sampleMlCv)).mpr
  constructor
  · intro t ht
    cases ht
    decide
  · right
    right
    right
    decide

/-- The empty string is a substring of every string. -/
theorem nil_isSubstr (l : Str) : ([] : Str) <:+: l := ⟨[], l, by simp⟩

set_option maxRecDepth 10000 in
/-- C3 counterexample: with the remaining-rate-limit header present but
empty (`""` is falsy in JavaScript) and the reset-time header `"9"`, the
stored error message omits the header values — the claim's "when the
remaining-rate-limit header is present" is too weak. -/
theorem errorMessage_empty_header_counterexample :
    (some ([] : Str)).isSome = true ∧
    (resolveLoad false {} (Except.error (errorMessage 403 (some []) (some "9".toList)))
        sampleState).error
      = some (errorMessage 403 (some []) (some "9".toList)) ∧
    ¬ ("9".toList <:+: errorMessage 403 (some []) (some "9".toList)) := by
  decide

/-- C3 (amended): a non-success HTTP response on any page aborts the whole
cycle with no partial result — the stored Collection keeps its pre-failure
value, the loading flag is cleared, and the stored error is a non-empty
message containing the HTTP status; when the remaining-rate-limit header is
present with a non-empty value the message also contains that value and the
interpolated reset-time value (`null` when the reset header is absent, and
up to the trailing-whitespace trim applied to the end of the message). -/
theorem fetch_failure_aborts (s : StoreState) (cfg : Config)
    (fulls : List (List GitHubRepo)) (rest : List (Except Str (List GitHubRepo)))
    (status : Nat) (remaining reset : Option Str)
    (hf : ∀ p ∈ fulls, PER_PAGE ≤ p.length) :
    runPages (fulls.map Except.ok
        ++ Except.error (errorMessage status remaining reset) :: rest)
      = some (Except.error (errorMessage status remaining reset)) ∧
    (resolveLoad false cfg (Except.error (errorMessage status remaining reset)) s).repositories
      = s.repositories ∧
    (resolveLoad false cfg (Except.error (errorMessage status remaining reset)) s).isLoading
      = false ∧
    (resolveLoad false cfg (Except.error (errorMessage status remaining reset)) s).error
      = some (errorMessage status remaining reset) ∧
    errorMessage status remaining reset ≠ [] ∧
    natDigits status <:+: errorMessage status remaining reset ∧
    (∀ r, remaining = some r → 0 < r.length →
      r <:+: errorMessage status remaining reset ∧
      rtrim (showOpt reset) <:+: errorMessage status remaining reset) := by
  have hmsg : errorMessage status remaining reset ≠ [] ∧
      natDigits status <:+: errorMessage status remaining reset ∧
      (∀ r, remaining = some r → 0 < r.length →
        r <:+: errorMessage status remaining reset ∧
        rtrim (showOpt reset) <:+: errorMessage status remaining reset) := by
    by_cases hrate : rateInfo remaining reset = none
    · rw [errorMessage_no_rate status remaining reset hrate]
      refine ⟨?_, ?_, ?_⟩
      · intro hc
        rcases List.append_eq_nil.mp hc with ⟨hc1, _⟩
        rcases List.append_eq_nil.mp hc1 with ⟨hc2, _⟩
        exact absurd hc2 (by decide)
      · exact ⟨"Failed to fetch repositories (status ".toList, ").".toList,
          by simp [List.append_assoc]⟩
      · intro r hrem hlen
        exfalso
        rw [hrem, rateInfo, if_pos hlen] at hrate
        cases hrate
    · obtain ⟨r, hrem, hlen⟩ : ∃ r, remaining = some r ∧ 0 < r.length := by
        cases hrm : remaining with
        | none => rw [hrm, rateInfo] at hrate; exact absurd rfl hrate
        | some r =>
          by_cases hl : 0 < r.length
          · exact ⟨r, rfl, hl⟩
          · rw [hrm, rateInfo, if_neg hl] at hrate
            exact absurd rfl hrate
      subst hrem
      rw [errorMessage_with_rate status r reset hlen]
      refine ⟨?_, ?_, ?_⟩
      · intro hc
        rcases List.append_eq_nil.mp hc with ⟨hc1, _⟩
        rcases List.append_eq_nil.mp hc1 with ⟨hc2, _⟩
        rcases List.append_eq_nil.mp hc2 with ⟨hc3, _⟩
        rcases List.append_eq_nil.mp hc3 with ⟨hc4, _⟩
        exact absurd hc4 (by decide)
      · exact ⟨"Failed to fetch repositories (status ".toList,
          "). Rate limit remaining: ".toList ++ r
            ++ rtrim (". Resets at: ".toList ++ showOpt reset),
          by simp [List.append_assoc]⟩
      · intro r' hr' hlen'
        cases hr'
        constructor
        · exact ⟨"Failed to fetch repositories (status ".toList ++ natDigits status
              ++ "). Rate limit remaining: ".toList,
            rtrim (". Resets at: ".toList ++ showOpt reset),
            by simp [List.append_assoc]⟩
        · rw [rtrim_append]
          by_cases hv : rtrim (showOpt reset) = []
          · rw [if_pos hv, hv]
            exact nil_isSubstr _
          · rw [if_neg hv]
            exact ⟨"Failed to fetch repositories (status ".toList ++ natDigits status
                ++ "). Rate limit remaining: ".toList ++ r ++ ". Resets at: ".toList,
              [],
              by simp [List.append_assoc]⟩
  exact ⟨runPages_error fulls _ rest hf, by simp [resolveLoad], by simp [resolveLoad],
    by simp [resolveLoad], hmsg.1, hmsg.2.1, hmsg.2.2⟩

set_option maxRecDepth 10000 in
/-- Witness for C3 at a concrete failure: status 403, remaining `"5"`,
reset `"17"`, no preceding pages, applied to the sample store state. -/
theorem fetch_failure_aborts_witness :
    (resolveLoad false {}
        (Except.error (errorMessage 403 (some "5".toList) (some "17".toList)))
        sampleState).repositories = sampleState.repositories ∧
    "5".toList <:+: errorMessage 403 (some "5".toList) (some "17".toList) ∧
    natDigits 403 <:+: errorMessage 403 (some "5".toList) (some "17".toList) := by
  have h := fetch_failure_aborts sampleState {} [] [] 403 (some "5".toList)
    (some "17".toList) (by intro p hp; cases hp)
  exact ⟨h.2.1, (h.2.2.2.2.2.2 "5".toList rfl (by decide)).1, h.2.2.2.2.2.1⟩

/-- C5: a successful non-cancelled fetch cycle stores exactly the processed
collection: the aggregated records with forks dropped unless `includeForks`
and archived records dropped unless `includeArchived` (membership
characterization), each survivor normalized (permutation), sorted descending
by `updated_at` with a stable sort, so records with equal timestamps keep
their aggregation order; the loading flag is cleared. -/
theorem resolveLoad_success_collection (cfg : Config) (s : StoreState)
    (aggregated : List GitHubRepo) :
    (resolveLoad false cfg (Except.ok aggregated) s).repositories
        = processRecords cfg aggregated ∧
    (resolveLoad false cfg (Except.ok aggregated) s).isLoading = false ∧
    ((resolveLoad false cfg (Except.ok aggregated) s).repositories).Perm
        ((aggregated.filter (keep cfg)).map normalise) ∧
    (∀ r, r ∈ (resolveLoad false cfg (Except.ok aggregated) s).repositories ↔
        ∃ raw ∈ aggregated, keep cfg raw = true ∧ r = normalise raw) ∧
    List.Pairwise (fun a b => byRecency a b = true)
        (resolveLoad false cfg (Except.ok aggregated) s).repositories ∧
    (∀ a b : RepositoryWithTags, a.updated_at = b.updated_at →
        [a, b].Sublist ((aggregated.filter (keep cfg)).map normalise) →
        [a, b].Sublist (resolveLoad false cfg (Except.ok aggregated) s).repositories) := by
  have hrepo : (resolveLoad false cfg (Except.ok aggregated) s).repositories
      = processRecords cfg aggregated := by simp [resolveLoad]
  refine ⟨hrepo, by simp [resolveLoad], ?_, ?_, ?_, ?_⟩
  · rw [hrepo, processRecords]
    exact List.mergeSort_perm _ _
  · intro r
    rw [hrepo, processRecords]
    rw [(List.mergeSort_perm ((aggregated.filter (keep cfg)).map normalise)
      byRecency).mem_iff]
    simp only [List.mem_map, List.mem_filter]
    constructor
    · rintro ⟨raw, ⟨hraw, hk⟩, rfl⟩
      exact ⟨raw, hraw, hk, rfl⟩
    · rintro ⟨raw, hraw, hk, rfl⟩
      exact ⟨raw, ⟨hraw, hk⟩, rfl⟩
  · rw [hrepo, processRecords]
    exact List.sorted_mergeSort byRecency_trans byRecency_total _
  · intro a b heq hsub
    rw [hrepo, processRecords]
    refine List.sublist_mergeSort byRecency_trans byRecency_total ?_ hsub
    refine List.pairwise_cons.mpr ⟨?_, List.pairwise_singleton _ _⟩
    intro b' hb'
    rcases List.mem_singleton.mp hb' with rfl
    simp [byRecency, heq]

set_option maxRecDepth 10000 in
/-- Witness for C5: the aggregation `[T2, T1, T3]` with timestamps `2, 5, 2`
is stored as `[T1, T2, T3]` — descending by timestamp with the tie `T2, T3`
kept in aggregation order, as the theorem's stability clause also concludes
for this concrete tie. -/
theorem resolveLoad_success_collection_witness :
    (resolveLoad false {} (Except.ok [sampleT2, sampleT1, sampleT3])
        sampleState).repositories
      = [normalise sampleT1, normalise sampleT2, normalise sampleT3] ∧
    [normalise sampleT2, normalise sampleT3].Sublist
      (resolveLoad false {} (Except.ok [sampleT2, sampleT1, sampleT3])
        sampleState).repositories := by
  constructor
  · rw [(resolveLoad_success_collection {} sampleState
      [sampleT2, sampleT1, sampleT3]).1, processRecords]
    simp [List.mergeSort, List.splitInTwo, List.splitAt, List.splitAt.go, List.merge,
      keep, byRecency, normalise, sampleT1, sampleT2, sampleT3, sampleRepo]
  · exact (resolveLoad_success_collection {} sampleState
      [sampleT2, sampleT1, sampleT3]).2.2.2.2.2 (normalise sampleT2) (normalise sampleT3)
      (by decide) (by decide)

/-- C6: under the normalized-record invariants (duplicate-free, lower-cased
`allTags`), the tag aggregator produces exactly one entry per distinct tag
occurring in some record's `allTags` (labels are duplicate-free and range
over exactly those tags), each entry's count equals the number of records
whose `allTags` contains its label, and the output is sorted by label (with
the locale comparator modelled as code-point order). -/
theorem tags_spec (repositories : List RepositoryWithTags)
    (hN : ∀ r ∈ repositories, r.allTags.Nodup)
    (hL : ∀ r ∈ repositories, ∀ u ∈ r.allTags, lowerStr u = u) :
    ((tags repositories).map TagMeta.label).Nodup ∧
    (∀ t : Str, (∃ m ∈ tags repositories, m.label = t) ↔
      ∃ r ∈ repositories, t ∈ r.allTags) ∧
    (∀ m ∈ tags repositories,
      m.count = (repositories.filter (fun r => decide (m.label ∈ r.allTags))).length) ∧
    List.Pairwise (fun a b : TagMeta => strLe a.label b.label = true)
      (tags repositories) := by
  have hperm : (tags repositories).Perm
      ((tagCounts repositories).map (fun e => TagMeta.mk e.1 e.2)) :=
    List.mergeSort_perm _ _
  have hkeys : ((tagCounts repositories).map
        (fun e => TagMeta.mk e.1 e.2)).map TagMeta.label
      = mapKeys (tagCounts repositories) := by
    simp only [List.map_map, mapKeys]
    rfl
  have hnd : (mapKeys (tagCounts repositories)).Nodup := by
    rw [mapKeys_tagCounts]
    exact nodup_jsSetOfList _
  refine ⟨?_, ?_, ?_, ?_⟩
  · have h1 : ((tags repositories).map TagMeta.label).Perm
        (mapKeys (tagCounts repositories)) := by
      rw [← hkeys]
      exact hperm.map _
    exact h1.nodup_iff.mpr hnd
  · intro t
    constructor
    · rintro ⟨m, hm, rfl⟩
      have hm' : m ∈ (tagCounts repositories).map (fun e => TagMeta.mk e.1 e.2) :=
        hperm.mem_iff.mp hm
      rcases List.mem_map.mp hm' with ⟨e, he, rfl⟩
      have hk : e.1 ∈ mapKeys (tagCounts repositories) :=
        List.mem_map.mpr ⟨e, he, rfl⟩
      rw [mapKeys_tagCounts, mem_jsSetOfList] at hk
      exact (mem_tagOccurrences repositories e.1 hL).mp hk
    · intro h
      have hocc : t ∈ tagOccurrences repositories :=
        (mem_tagOccurrences repositories t hL).mpr h
      have h2 : t ∈ mapKeys (tagCounts repositories) := by
        rw [mapKeys_tagCounts, mem_jsSetOfList]
        exact hocc
      rcases List.mem_map.mp h2 with ⟨e, he, rfl⟩
      exact ⟨TagMeta.mk e.1 e.2, hperm.mem_iff.mpr (List.mem_map.mpr ⟨e, he, rfl⟩), rfl⟩
  · intro m hm
    have hm' : m ∈ (tagCounts repositories).map (fun e => TagMeta.mk e.1 e.2) :=
      hperm.mem_iff.mp hm
    rcases List.mem_map.mp hm' with ⟨e, he, rfl⟩
    have hget : mapGet (tagCounts repositories) e.1 = some e.2 :=
      mapGet_eq_of_mem _ e.1 e.2 hnd (by simpa using he)
    rw [mapGet_tagCounts] at hget
    have hmem : e.1 ∈ tagOccurrences repositories := by
      by_contra hno
      rw [if_neg hno] at hget
      cases hget
    rw [if_pos hmem] at hget
    have hcount : e.2 = (tagOccurrences repositories).count e.1 := by
      injection hget with h'
      exact h'.symm
    show e.2 = (repositories.filter (fun r => decide (e.1 ∈ r.allTags))).length
    rw [hcount, count_tagOccurrences repositories e.1 hN hL]
  · exact List.sorted_mergeSort
      (fun a b c hab hbc => strLe_trans a.label b.label c.label hab hbc)
      (fun a b => strLe_total a.label b.label) _

set_option maxRecDepth 10000 in
/-- Witness for C6: records with tag lists `[["ml","cv"], ["ml"]]` aggregate
to `[(cv, 1), (ml, 2)]` sorted by label, and the theorem applies to these
records (normalized, so duplicate-free lower-cased tags). -/
theorem tags_spec_witness :
    tags [normalise sampleMlCv, normalise sampleMl]
      = [TagMeta.mk "cv".toList 1, TagMeta.mk "ml".toList 2] ∧
    ((tags [normalise sampleMlCv, normalise sampleMl]).map TagMeta.label).Nodup := by
  constructor
  · have h0 : (tagCounts [normalise sampleMlCv, normalise sampleMl]).map
        (fun e => TagMeta.mk e.1 e.2)
        = [TagMeta.mk "ml".toList 2, TagMeta.mk "cv".toList 1] := by decide
    rw [tags, h0]
    simp [List.mergeSort, List.splitInTwo, List.splitAt, List.splitAt.go, List.merge]
    all_goals decide
  · exact (tags_spec [normalise sampleMlCv, normalise sampleMl]
      (by decide) (by decide)).1
